import Mathlib

/-!
Verification of the habit-tracker state/persistence logic (src/script.js).

The JavaScript source is shallowly embedded as Lean functions:

* A `Habit` is the record `{ id, name, time, completed }` built by `addHabit`.
* A `State` holds the in-memory module state (`habits`, `totalPoints`) plus
  the `localStorage` slot `habitsData`, modelled as an `Option String`
  (absent key vs. stored JSON text).
* `JSON.stringify` on the snapshot object written by `saveData`, and
  `JSON.parse` (plus the subsequent field accesses) performed by `loadData`
  and `checkDailyReset`, are modelled by `encodeSnapshot` / `parseSnapshot`:
  a concrete serializer to the exact JSON text shape
  `\x7b"lastVisitDate":…,"habits":[…]\x7d` and a parser for that shape.
  String contents are escaped as JSON.stringify does for the quote and
  backslash characters; `parseSnapshot` returns `none` exactly where
  `JSON.parse` (or the following field access) would throw in JS.
* Functions that can throw in JS (`JSON.parse` on corrupt data) are embedded
  in `Except Unit`; `.error ()` marks an uncaught exception.
* `Date.now()` and `new Date().toDateString()` are external inputs, passed in
  as explicit `now : Nat` / `today : String` arguments.
* `Array.prototype.sort` (stable, consistent comparator) is modelled by
  `List.mergeSort`; `localeCompare` on the `time` strings that occur here
  (`"Anytime"` and `"HH:MM"`) agrees with code-point order, which is the
  Lean `String` order used in `displayLe`.
* DOM reads/writes, alerts and the highlight animation are out of scope; the
  `confirm` dialog of `deleteHabit` is an explicit boolean input.
-/

/-- A habit record as constructed by `addHabit` in src/script.js. -/
structure Habit where
  id : Nat
  name : String
  time : String
  completed : Bool
deriving Repr, DecidableEq

/-- The object written to `localStorage` by `saveData`:
`\x7b lastVisitDate, habits \x7d`. -/
structure Snapshot where
  lastVisitDate : String
  habits : List Habit
deriving Repr, DecidableEq

/-- Module-level mutable state of src/script.js (`habits`, `totalPoints`)
together with the `localStorage` slot `habitsData`. -/
structure State where
  habits : List Habit
  totalPoints : Nat
  storage : Option String
deriving Repr, DecidableEq

/-- `const POINTS_PER_HABIT = 10` (src/script.js line 16). -/
def POINTS_PER_HABIT : Nat := 10

/-- `habits.filter(h => h.completed).length`. -/
def completedCount (habits : List Habit) : Nat :=
  (habits.filter (fun h => h.completed)).length

/-! ## Serialization: model of `JSON.stringify` on the saved snapshot -/

/-- JSON string escaping for one character (quote and backslash, the two
escapes relevant to round-tripping). -/
def escChar (c : Char) : List Char :=
  if c = '"' ∨ c = '\\' then ['\\', c] else [c]

/-- JSON string escaping of a character list. -/
def escapeChars : List Char → List Char
  | [] => []
  | c :: cs => escChar c ++ escapeChars cs

/-- A JSON string literal: `"` + escaped contents + `"`. -/
def encodeString (s : String) : List Char :=
  '"' :: (escapeChars s.data ++ ['"'])

/-- The decimal digit character for `d < 10`. -/
def digitChar (d : Nat) : Char := Char.ofNat (48 + d)

/-- Decimal digits of a positive number, least significant first. -/
def natDigitsRev : Nat → List Char
  | 0 => []
  | n + 1 => digitChar ((n + 1) % 10) :: natDigitsRev ((n + 1) / 10)
decreasing_by exact Nat.div_lt_self (Nat.succ_pos n) (by omega)

/-- Decimal notation of a natural number (JSON number as produced for the
integer `Date.now()` ids). -/
def encodeNat (n : Nat) : List Char :=
  if n = 0 then ['0'] else (natDigitsRev n).reverse

/-- JSON booleans. -/
def encodeBool : Bool → List Char
  | true => ['t', 'r', 'u', 'e']
  | false => ['f', 'a', 'l', 's', 'e']

/-- A JSON object key followed by `:`, e.g. `"id":`. -/
def keyChars (s : String) : List Char :=
  '"' :: (s.data ++ ['"', ':'])

/-- JSON text of one habit object, in the field order of the object literal
built by `addHabit` (which is the order `JSON.stringify` emits). -/
def encodeHabit (h : Habit) : List Char :=
  '{' :: (keyChars "id" ++ encodeNat h.id
    ++ ',' :: (keyChars "name" ++ encodeString h.name
    ++ ',' :: (keyChars "time" ++ encodeString h.time
    ++ ',' :: (keyChars "completed" ++ encodeBool h.completed
    ++ ['}']))))

/-- Comma-separated habit objects (contents of the JSON array). -/
def encodeHabitList : List Habit → List Char
  | [] => []
  | [h] => encodeHabit h
  | h :: h2 :: t => encodeHabit h ++ ',' :: encodeHabitList (h2 :: t)

/-- `JSON.stringify(\x7b lastVisitDate: today, habits \x7d)` as in `saveData`. -/
def encodeSnapshot (snap : Snapshot) : String :=
  ⟨'{' :: (keyChars "lastVisitDate" ++ encodeString snap.lastVisitDate
    ++ ',' :: (keyChars "habits"
    ++ '[' :: (encodeHabitList snap.habits ++ [']', '}'])))⟩

/-! ## Parsing: model of `JSON.parse` restricted to the snapshot shape -/

/-- Consume an expected literal character sequence, or fail. -/
def parseLit : List Char → List Char → Option (List Char)
  | [], s => some s
  | _ :: _, [] => none
  | c :: cs, d :: ds => if c = d then parseLit cs ds else none

/-- Consume the body of a JSON string literal after the opening quote,
undoing escapes, up to the closing quote. -/
def parseStringAux : List Char → Option (List Char × List Char)
  | [] => none
  | c :: rest =>
    if c = '"' then some ([], rest)
    else if c = '\\' then
      match rest with
      | [] => none
      | d :: rest2 =>
        match parseStringAux rest2 with
        | none => none
        | some (s, r) => some (d :: s, r)
    else
      match parseStringAux rest with
      | none => none
      | some (s, r) => some (c :: s, r)

/-- Consume a JSON string literal. -/
def parseString : List Char → Option (List Char × List Char)
  | c :: rest => if c = '"' then parseStringAux rest else none
  | [] => none

/-- Numeric value of a decimal digit character. -/
def digitVal (c : Char) : Nat := c.toNat - 48

/-- Consume further decimal digits, accumulating the value. -/
def parseNatAux : Nat → List Char → Nat × List Char
  | acc, [] => (acc, [])
  | acc, c :: rest =>
    if c.isDigit then parseNatAux (10 * acc + digitVal c) rest else (acc, c :: rest)

/-- Consume a decimal number (at least one digit). -/
def parseNat : List Char → Option (Nat × List Char)
  | c :: rest => if c.isDigit then some (parseNatAux (digitVal c) rest) else none
  | [] => none

/-- Consume a JSON boolean. -/
def parseBool (s : List Char) : Option (Bool × List Char) :=
  match parseLit (encodeBool true) s with
  | some r => some (true, r)
  | none =>
    match parseLit (encodeBool false) s with
    | some r => some (false, r)
    | none => none

/-- Consume one habit object of the persisted shape. -/
def parseHabit (s : List Char) : Option (Habit × List Char) := do
  let s1 ← parseLit ('{' :: keyChars "id") s
  let (i, s2) ← parseNat s1
  let s3 ← parseLit (',' :: keyChars "name") s2
  let (nm, s4) ← parseString s3
  let s5 ← parseLit (',' :: keyChars "time") s4
  let (tm, s6) ← parseString s5
  let s7 ← parseLit (',' :: keyChars "completed") s6
  let (b, s8) ← parseBool s7
  match s8 with
  | '}' :: s9 => some (⟨i, ⟨nm⟩, ⟨tm⟩, b⟩, s9)
  | _ => none

/-- Consume the comma-separated elements of a non-empty habit array up to the
closing bracket; `fuel` bounds the number of elements. -/
def parseHabitsAux : Nat → List Char → Option (List Habit × List Char)
  | 0, _ => none
  | fuel + 1, s => do
    let (h, s1) ← parseHabit s
    match s1 with
    | ',' :: s2 => do
      let (hs, s3) ← parseHabitsAux fuel s2
      some (h :: hs, s3)
    | ']' :: s2 => some ([h], s2)
    | _ => none

/-- Consume a habit array `[…]`. -/
def parseHabits (fuel : Nat) : List Char → Option (List Habit × List Char)
  | '[' :: (']' :: s2) => some ([], s2)
  | '[' :: s1 => parseHabitsAux fuel s1
  | _ => none

/-- Model of `JSON.parse` on the stored `habitsData` text, together with the
field accesses performed on the result: succeeds exactly on text of the
persisted snapshot shape, returning the snapshot; `none` models a thrown
exception or a value on which the subsequent accesses would fail. -/
def parseSnapshot (str : String) : Option Snapshot := do
  let s1 ← parseLit ('{' :: keyChars "lastVisitDate") str.data
  let (d, s2) ← parseString s1
  let s3 ← parseLit (',' :: keyChars "habits") s2
  let (hs, s4) ← parseHabits (str.data.length + 1) s3
  match s4 with
  | ['}'] => some ⟨⟨d⟩, hs⟩
  | _ => none

/-! ## Store operations (src/script.js functions) -/

/-- `calculatePoints` (lines 87–95): recompute `totalPoints` as
`completedCount * POINTS_PER_HABIT` from the current habits (the DOM text
update and animation are display-only). -/
def calculatePoints (st : State) : State :=
  { st with totalPoints := completedCount st.habits * POINTS_PER_HABIT }

/-- `saveData` (lines 59–67): write
`\x7b lastVisitDate: new Date().toDateString(), habits \x7d` as JSON into the
`habitsData` slot, then `calculatePoints()` (`updateProgress` is
display-only, modelled separately as `updateProgress`). -/
def saveData (today : String) (st : State) : State :=
  calculatePoints { st with storage := some (encodeSnapshot ⟨today, st.habits⟩) }

/-- `loadData` (lines 49–57): if the slot is absent do nothing; otherwise
`JSON.parse` it (an exception propagates: `.error ()`), set `habits` to
`parsedData.habits` and recompute points. -/
def loadData (st : State) : Except Unit State :=
  match st.storage with
  | none => .ok st
  | some raw =>
    match parseSnapshot raw with
    | none => .error ()
    | some snap => .ok (calculatePoints { st with habits := snap.habits })

/-- `checkDailyReset` (lines 69–85): if the slot is absent do nothing;
otherwise parse it (an exception propagates) and compare its
`lastVisitDate` with today's date string; when they differ, clear every
habit's `completed` flag and `saveData()`. The returned boolean records
whether a reset occurred (the alert branch). -/
def checkDailyReset (today : String) (st : State) : Except Unit (State × Bool) :=
  match st.storage with
  | none => .ok (st, false)
  | some raw =>
    match parseSnapshot raw with
    | none => .error ()
    | some snap =>
      if snap.lastVisitDate = today then .ok (st, false)
      else
        .ok (saveData today
          { st with habits := st.habits.map (fun h => { h with completed := false }) }, true)

/-- JS `String.prototype.trim`: strip leading and trailing whitespace. -/
def jsTrim (s : String) : String :=
  ⟨((s.data.dropWhile Char.isWhitespace).reverse.dropWhile Char.isWhitespace).reverse⟩

/-- JS `String.prototype.toLowerCase` on the names compared here (per-character
lowercasing). -/
def jsToLower (s : String) : String :=
  ⟨s.data.map Char.toLower⟩

/-- The two ways `addHabit` aborts: empty trimmed name (first alert) and a
case-insensitive duplicate (second alert). -/
inductive AddError where
  | validation
  | duplicate
deriving Repr, DecidableEq

/-- `addHabit` (lines 111–140): trim the name; abort on empty name or a
case-insensitive duplicate; otherwise push
`\x7b id: Date.now(), name, time: time || 'Anytime', completed: false \x7d`
and `saveData()`. `now` stands for `Date.now()`; the input-field clearing
and rendering are display-only. -/
def addHabit (now : Nat) (today : String) (nameIn timeIn : String) (st : State) :
    State × Except AddError Habit :=
  let name := jsTrim nameIn
  if name = "" then (st, .error .validation)
  else if st.habits.any (fun h => jsToLower h.name == jsToLower name) then
    (st, .error .duplicate)
  else
    let newHabit : Habit :=
      { id := now, name := name,
        time := if timeIn = "" then "Anytime" else timeIn, completed := false }
    (saveData today { st with habits := st.habits ++ [newHabit] }, .ok newHabit)

/-- Flip the `completed` flag of the first habit whose id matches (the object
returned by `habits.find` and mutated in place by `toggleHabit`). -/
def toggleList (i : Nat) : List Habit → List Habit
  | [] => []
  | h :: t =>
    if h.id = i then { h with completed := !h.completed } :: t
    else h :: toggleList i t

/-- `toggleHabit` (lines 142–149): if `habits.find(h => h.id === id)` hits,
flip that habit's `completed` and `saveData()`; otherwise do nothing. -/
def toggleHabit (today : String) (i : Nat) (st : State) : State :=
  if st.habits.any (fun h => h.id == i) then
    saveData today { st with habits := toggleList i st.habits }
  else st

/-- `deleteHabit` (lines 151–157): behind a `confirm` dialog (its outcome is
the `confirmed` input), keep exactly the habits whose id differs, then
`saveData()`. -/
def deleteHabit (confirmed : Bool) (today : String) (i : Nat) (st : State) : State :=
  if confirmed then
    saveData today { st with habits := st.habits.filter (fun h => h.id != i) }
  else st

/-- Lexicographic code-point comparison of character lists: the raw string
order in which the display sort compares `time` fields. -/
def charListLe : List Char → List Char → Bool
  | [], _ => true
  | _ :: _, [] => false
  | a :: as, b :: bs => if a < b then true else if b < a then false else charListLe as bs

/-- Raw lexicographic string comparison used for the `time` fields. -/
def timeLe (a b : String) : Bool := charListLe a.data b.data

/-- The comparator of `renderHabits` (lines 170–175) as a `≤`-test: the JS
comparator returns `a.time.localeCompare(b.time)` when the `completed` flags
agree and `a.completed ? 1 : -1` otherwise, so `compare(a,b) ≤ 0` holds iff
this function is `true` (`localeCompare` agrees with code-point string order
on the values `"Anytime"`/`"HH:MM"` this field takes). -/
def displayLe (a b : Habit) : Bool :=
  if a.completed = b.completed then timeLe a.time b.time else !a.completed

/-- The display ordering of `renderHabits` (lines 169–175):
`[...habits].sort(comparator)` on a copy of the list. JS `sort` is stable
and the comparator is a total preorder, which characterises the result
uniquely; `List.mergeSort` is that stable sort. -/
def listForDisplay (habits : List Habit) : List Habit :=
  habits.mergeSort displayLe

/-- JS `Math.round`: round half towards positive infinity. -/
def jsRound (q : ℚ) : ℤ := ⌊q + 1 / 2⌋

/-- `updateProgress` (lines 97–109): the percentage written to the progress
bar: `0` for an empty list, else `Math.round(completed / length * 100)`
(IEEE doubles modelled as exact rationals). -/
def updateProgress (habits : List Habit) : ℤ :=
  if habits.length = 0 then 0
  else jsRound ((completedCount habits : ℚ) / (habits.length : ℚ) * 100)

/-- The states reachable from a fresh page load (`habits = []`,
`totalPoints = 0`, arbitrary stored slot) by the operations of the script:
`loadData`, `checkDailyReset` (the startup sequence), `addHabit`,
`toggleHabit`, `deleteHabit`, and a bare `saveData`. -/
inductive Reachable : State → Prop where
  | init (storage : Option String) : Reachable ⟨[], 0, storage⟩
  | load {st st2 : State} : Reachable st → loadData st = .ok st2 → Reachable st2
  | reset {st st2 : State} {today : String} {b : Bool} :
      Reachable st → checkDailyReset today st = .ok (st2, b) → Reachable st2
  | add {st : State} (now : Nat) (today nameIn timeIn : String) :
      Reachable st → Reachable (addHabit now today nameIn timeIn st).1
  | toggle {st : State} (today : String) (i : Nat) :
      Reachable st → Reachable (toggleHabit today i st)
  | delete {st : State} (confirmed : Bool) (today : String) (i : Nat) :
      Reachable st → Reachable (deleteHabit confirmed today i st)
  | save {st : State} (today : String) : Reachable st → Reachable (saveData today st)

/-! ## Round-trip lemmas for the serializer -/

theorem parseLit_append (lit rest : List Char) :
    parseLit lit (lit ++ rest) = some rest := by
  induction lit with
  | nil => rfl
  | cons c cs ih => simp [parseLit, ih]

theorem parseStringAux_quote (rest : List Char) :
    parseStringAux ('"' :: rest) = some ([], rest) := by
  conv_lhs => rw [parseStringAux.eq_def]
  simp

theorem parseStringAux_escaped (d : Char) (rest : List Char) :
    parseStringAux ('\\' :: d :: rest) =
      (parseStringAux rest).map (fun p => (d :: p.1, p.2)) := by
  conv_lhs => rw [parseStringAux.eq_def]
  rcases h : parseStringAux rest with _ | ⟨s, r⟩ <;> simp [h]

theorem parseStringAux_plain (c : Char) (rest : List Char)
    (h1 : c ≠ '"') (h2 : c ≠ '\\') :
    parseStringAux (c :: rest) =
      (parseStringAux rest).map (fun p => (c :: p.1, p.2)) := by
  conv_lhs => rw [parseStringAux.eq_def]
  rcases h : parseStringAux rest with _ | ⟨s, r⟩ <;> simp [h, h1, h2]

theorem parseStringAux_escape (l rest : List Char) :
    parseStringAux (escapeChars l ++ '"' :: rest) = some (l, rest) := by
  induction l with
  | nil => simpa [escapeChars] using parseStringAux_quote rest
  | cons c cs ih =>
    by_cases hc : c = '"' ∨ c = '\\'
    · have : escChar c = ['\\', c] := by simp [escChar, hc]
      simp [escapeChars, this, parseStringAux_escaped, ih]
    · push_neg at hc
      have : escChar c = [c] := by simp [escChar, hc.1, hc.2]
      simp [escapeChars, this, parseStringAux_plain c _ hc.1 hc.2, ih]

theorem parseString_encode (s : String) (rest : List Char) :
    parseString (encodeString s ++ rest) = some (s.data, rest) := by
  simp [encodeString, parseString, parseStringAux_escape]

/-- Digit characters are recognised by `Char.isDigit`. -/
theorem digitChar_isDigit (d : Nat) (h : d < 10) : (digitChar d).isDigit = true := by
  interval_cases d <;> decide

/-- `digitVal` undoes `digitChar` on single digits. -/
theorem digitVal_digitChar (d : Nat) (h : d < 10) : digitVal (digitChar d) = d := by
  interval_cases d <;> decide

/-- Every character emitted by `natDigitsRev` is a decimal digit. -/
theorem natDigitsRev_isDigit (n : Nat) : ∀ c ∈ natDigitsRev n, c.isDigit = true := by
  induction n using Nat.strong_induction_on with
  | _ n ih =>
    match n with
    | 0 => simp [natDigitsRev]
    | m + 1 =>
      intro c hc
      rw [natDigitsRev] at hc
      rcases List.mem_cons.mp hc with h | h
      · subst h; exact digitChar_isDigit _ (Nat.mod_lt _ (by omega))
      · exact ih ((m + 1) / 10) (Nat.div_lt_self (Nat.succ_pos m) (by omega)) c h

/-- The accumulator step of `parseNatAux`. -/
def digAcc (a : Nat) (c : Char) : Nat := 10 * a + digitVal c

theorem parseNatAux_digits (ds : List Char) :
    ∀ (rest : List Char) (acc : Nat), (∀ c ∈ ds, c.isDigit = true) →
    (∀ c, rest.head? = some c → c.isDigit = false) →
    parseNatAux acc (ds ++ rest) = (ds.foldl digAcc acc, rest) := by
  induction ds with
  | nil =>
    intro rest acc _ hrest
    cases rest with
    | nil => simp [parseNatAux]
    | cons c r => simp [parseNatAux, hrest c rfl]
  | cons c cs ih =>
    intro rest acc hds hrest
    have hc : c.isDigit = true := hds c (List.mem_cons_self c cs)
    simp only [List.cons_append, parseNatAux, hc, if_true, List.foldl_cons]
    exact ih rest _ (fun x hx => hds x (List.mem_cons_of_mem c hx)) hrest

theorem foldl_digAcc_natDigitsRev (n : Nat) :
    ∀ acc : Nat, (natDigitsRev n).reverse.foldl digAcc acc =
      acc * 10 ^ (natDigitsRev n).length + n := by
  induction n using Nat.strong_induction_on with
  | _ n ih =>
    match n with
    | 0 => simp [natDigitsRev]
    | m + 1 =>
      intro acc
      rw [natDigitsRev]
      have hlt : (m + 1) / 10 < m + 1 := Nat.div_lt_self (Nat.succ_pos m) (by omega)
      have hdm : 10 * ((m + 1) / 10) + (m + 1) % 10 = m + 1 := Nat.div_add_mod (m + 1) 10
      simp only [List.reverse_cons, List.foldl_append, List.foldl_cons, List.foldl_nil,
        List.length_cons]
      rw [ih ((m + 1) / 10) hlt acc]
      unfold digAcc
      rw [digitVal_digitChar _ (Nat.mod_lt _ (by omega))]
      have : 10 * (acc * 10 ^ (natDigitsRev ((m + 1) / 10)).length + (m + 1) / 10)
            + (m + 1) % 10
          = acc * 10 ^ ((natDigitsRev ((m + 1) / 10)).length + 1)
            + (10 * ((m + 1) / 10) + (m + 1) % 10) := by ring
      rw [this, hdm]

theorem parseNat_digits (cs rest : List Char) (hne : cs ≠ [])
    (hcs : ∀ c ∈ cs, c.isDigit = true)
    (hrest : ∀ c, rest.head? = some c → c.isDigit = false) :
    parseNat (cs ++ rest) = some (cs.foldl digAcc 0, rest) := by
  cases cs with
  | nil => exact absurd rfl hne
  | cons c cs2 =>
    have hc : c.isDigit = true := hcs c (List.mem_cons_self c cs2)
    simp only [List.cons_append, parseNat, hc, if_true, List.foldl_cons]
    rw [parseNatAux_digits cs2 rest _ (fun x hx => hcs x (List.mem_cons_of_mem c hx)) hrest]
    simp [digAcc]

theorem parseNat_encode (n : Nat) (rest : List Char)
    (hrest : ∀ c, rest.head? = some c → c.isDigit = false) :
    parseNat (encodeNat n ++ rest) = some (n, rest) := by
  rcases Nat.eq_zero_or_pos n with h0 | hpos
  · subst h0
    have h00 : encodeNat 0 = ['0'] := rfl
    rw [h00, parseNat_digits ['0'] rest (by simp)
      (by intro c hc; rw [List.mem_singleton] at hc; subst hc; decide) hrest]
    rfl
  · have hne : natDigitsRev n ≠ [] := by
      cases n with
      | zero => omega
      | succ m => rw [natDigitsRev]; simp
    rw [encodeNat, if_neg (by omega)]
    rw [parseNat_digits _ rest (by simpa using hne)
      (fun c hc => natDigitsRev_isDigit n c (List.mem_reverse.mp hc)) hrest]
    rw [foldl_digAcc_natDigitsRev]
    simp

theorem parseBool_encode (b : Bool) (rest : List Char) :
    parseBool (encodeBool b ++ rest) = some (b, rest) := by
  cases b <;> simp [parseBool, encodeBool, parseLit, parseLit_append]

theorem parseHabit_encode (h : Habit) (rest : List Char) :
    parseHabit (encodeHabit h ++ rest) = some (h, rest) := by
  have e1 : encodeHabit h ++ rest
      = ('{' :: keyChars "id") ++ (encodeNat h.id
        ++ ((',' :: keyChars "name") ++ (encodeString h.name
        ++ ((',' :: keyChars "time") ++ (encodeString h.time
        ++ ((',' :: keyChars "completed") ++ (encodeBool h.completed
        ++ '}' :: rest))))))) := by
    simp [encodeHabit]
  have hcomma : ∀ (l tail : List Char) (c : Char),
      ((',' :: l) ++ tail).head? = some c → c.isDigit = false := by
    intro l tail c hc
    simp only [List.cons_append, List.head?_cons, Option.some_inj] at hc
    subst hc; decide
  rw [parseHabit, e1, parseLit_append]
  simp only [Option.bind_eq_bind, Option.some_bind]
  rw [parseNat_encode _ _ (hcomma _ _)]
  simp only [Option.bind_eq_bind, Option.some_bind]
  rw [parseLit_append]
  simp only [Option.bind_eq_bind, Option.some_bind]
  rw [parseString_encode]
  simp only [Option.bind_eq_bind, Option.some_bind]
  rw [parseLit_append]
  simp only [Option.bind_eq_bind, Option.some_bind]
  rw [parseString_encode]
  simp only [Option.bind_eq_bind, Option.some_bind]
  rw [parseLit_append]
  simp only [Option.bind_eq_bind, Option.some_bind]
  rw [parseBool_encode]
  simp only [Option.bind_eq_bind, Option.some_bind]

theorem parseHabitsAux_encode (hs : List Habit) :
    ∀ (fuel : Nat) (rest : List Char), hs ≠ [] → hs.length ≤ fuel →
    parseHabitsAux fuel (encodeHabitList hs ++ ']' :: rest) = some (hs, rest) := by
  induction hs with
  | nil => intro fuel rest hne _; exact absurd rfl hne
  | cons h t ih =>
    intro fuel rest _ hlen
    cases fuel with
    | zero => simp at hlen
    | succ f =>
      cases t with
      | nil =>
        rw [parseHabitsAux]
        simp only [encodeHabitList]
        rw [parseHabit_encode]
        simp only [Option.bind_eq_bind, Option.some_bind]
      | cons h2 t2 =>
        rw [parseHabitsAux]
        simp only [encodeHabitList]
        have e1 : (encodeHabit h ++ ',' :: encodeHabitList (h2 :: t2)) ++ ']' :: rest
            = encodeHabit h ++ ',' :: (encodeHabitList (h2 :: t2) ++ ']' :: rest) := by
          simp
        rw [e1, parseHabit_encode]
        simp only [Option.bind_eq_bind, Option.some_bind]
        rw [ih f rest (by simp) (by simpa using Nat.lt_succ_iff.mp (Nat.lt_of_lt_of_le (Nat.lt_succ_self _) hlen))]
        rfl

theorem parseHabits_encode (hs : List Habit) (fuel : Nat) (rest : List Char)
    (hlen : hs.length ≤ fuel) :
    parseHabits fuel ('[' :: (encodeHabitList hs ++ ']' :: rest)) = some (hs, rest) := by
  cases hs with
  | nil => simp [encodeHabitList, parseHabits]
  | cons h t =>
    obtain ⟨tl, htl⟩ : ∃ tl, encodeHabitList (h :: t) = '{' :: tl := by
      cases t <;> simp [encodeHabitList, encodeHabit]
    have hx := parseHabitsAux_encode (h :: t) fuel rest (by simp) hlen
    rw [htl] at hx ⊢
    rw [parseHabits]
    · exact hx
    · intro s2 hcontra
      simp at hcontra

theorem encodeHabitList_length_ge (hs : List Habit) :
    hs.length ≤ (encodeHabitList hs).length := by
  induction hs with
  | nil => simp [encodeHabitList]
  | cons h t ih =>
    cases t with
    | nil => simp [encodeHabitList, encodeHabit]
    | cons h2 t2 =>
      simp only [encodeHabitList, List.length_append, List.length_cons] at ih ⊢
      omega

theorem parseSnapshot_encode (snap : Snapshot) :
    parseSnapshot (encodeSnapshot snap) = some snap := by
  unfold parseSnapshot
  have hdata : (encodeSnapshot snap).data
      = ('{' :: keyChars "lastVisitDate") ++ (encodeString snap.lastVisitDate
        ++ ((',' :: keyChars "habits") ++ ('[' :: (encodeHabitList snap.habits
        ++ ']' :: ['}'])))) := by
    simp [encodeSnapshot]
  rw [hdata, parseLit_append]
  simp only [Option.bind_eq_bind, Option.some_bind]
  rw [parseString_encode]
  simp only [Option.bind_eq_bind, Option.some_bind]
  rw [parseLit_append]
  simp only [Option.bind_eq_bind, Option.some_bind]
  rw [parseHabits_encode _ _ _ (by
    simp only [List.length_append, List.length_cons]
    have := encodeHabitList_length_ge snap.habits
    omega)]
  simp only [Option.bind_eq_bind, Option.some_bind]

/-! ## Operation-level lemmas -/

theorem saveData_habits (today : String) (st : State) :
    (saveData today st).habits = st.habits := rfl

theorem saveData_storage (today : String) (st : State) :
    (saveData today st).storage = some (encodeSnapshot ⟨today, st.habits⟩) := rfl

theorem saveData_points (today : String) (st : State) :
    (saveData today st).totalPoints = completedCount st.habits * POINTS_PER_HABIT := rfl

theorem toggleList_not_mem (i : Nat) (l : List Habit) (h : ∀ x ∈ l, x.id ≠ i) :
    toggleList i l = l := by
  induction l with
  | nil => rfl
  | cons a t ih =>
    have ha : a.id ≠ i := h a (List.mem_cons_self a t)
    simp only [toggleList, if_neg ha]
    rw [ih (fun x hx => h x (List.mem_cons_of_mem a hx))]

theorem toggleList_map_id (i : Nat) (l : List Habit) :
    (toggleList i l).map Habit.id = l.map Habit.id := by
  induction l with
  | nil => rfl
  | cons a t ih =>
    by_cases ha : a.id = i
    · simp [toggleList, ha]
    · simp [toggleList, ha, ih]

theorem toggleList_toggleList (i : Nat) (l : List Habit) :
    toggleList i (toggleList i l) = l := by
  induction l with
  | nil => rfl
  | cons a t ih =>
    by_cases ha : a.id = i
    · simp [toggleList, ha, Bool.not_not]
      rw [← ha]
    · simp [toggleList, ha, ih]

theorem any_id_map (i : Nat) (l : List Habit) :
    l.any (fun x => x.id == i) = (l.map Habit.id).any (fun x => x == i) := by
  induction l with
  | nil => rfl
  | cons a t ih => simp [List.any_cons, ih]

theorem habits_any_id_eq (i : Nat) (l l2 : List Habit)
    (h : l2.map Habit.id = l.map Habit.id) :
    l2.any (fun x => x.id == i) = l.any (fun x => x.id == i) := by
  rw [any_id_map, any_id_map, h]

theorem anyid_decomp (i : Nat) (l : List Habit)
    (h : l.any (fun x => x.id == i) = true) :
    ∃ l₁ a l₂, l = l₁ ++ a :: l₂ ∧ (∀ x ∈ l₁, x.id ≠ i) ∧ a.id = i := by
  induction l with
  | nil => simp at h
  | cons a t ih =>
    by_cases ha : a.id = i
    · exact ⟨[], a, t, by simp, by simp, ha⟩
    · have ht : t.any (fun x => x.id == i) = true := by
        rcases List.any_eq_true.mp h with ⟨x, hx, hxi⟩
        rcases List.mem_cons.mp hx with rfl | hx2
        · exact absurd (by simpa using hxi) ha
        · exact List.any_eq_true.mpr ⟨x, hx2, hxi⟩
      obtain ⟨l₁, b, l₂, hdec, hl₁, hb⟩ := ih ht
      refine ⟨a :: l₁, b, l₂, by rw [hdec]; rfl, ?_, hb⟩
      intro x hx
      rcases List.mem_cons.mp hx with rfl | hx2
      · exact ha
      · exact hl₁ x hx2

theorem toggleList_skip (i : Nat) (l₁ l₂ : List Habit) (h : ∀ x ∈ l₁, x.id ≠ i) :
    toggleList i (l₁ ++ l₂) = l₁ ++ toggleList i l₂ := by
  induction l₁ with
  | nil => rfl
  | cons a t ih =>
    have ha : a.id ≠ i := h a (List.mem_cons_self a t)
    simp only [List.cons_append, toggleList, if_neg ha]
    exact congrArg (a :: ·) (ih (fun x hx => h x (List.mem_cons_of_mem a hx)))

/-! ## Claim theorems -/

/-- C8: for every store state and id, applying `toggleHabit` twice in
succession returns the habit list — and with it every habit's `completed`
flag — to exactly its original value (stated for all ids, which covers in
particular every id present in the list). -/
theorem toggle_twice_restores (st : State) (today : String) (i : Nat) :
    (toggleHabit today i (toggleHabit today i st)).habits = st.habits := by
  by_cases h : st.habits.any (fun h => h.id == i) = true
  · have h1 : toggleHabit today i st
        = saveData today { st with habits := toggleList i st.habits } := by
      rw [toggleHabit, if_pos h]
    rw [h1]
    have hany2 : (saveData today { st with habits := toggleList i st.habits }).habits.any
        (fun h => h.id == i) = true := by
      rw [saveData_habits]
      show (toggleList i st.habits).any (fun h => h.id == i) = true
      rw [habits_any_id_eq i st.habits (toggleList i st.habits) (toggleList_map_id i st.habits)]
      exact h
    rw [toggleHabit, if_pos hany2, saveData_habits]
    show toggleList i ((saveData today { st with habits := toggleList i st.habits }).habits)
        = st.habits
    rw [saveData_habits]
    show toggleList i (toggleList i st.habits) = st.habits
    exact toggleList_toggleList i st.habits
  · have h1 : toggleHabit today i st = st := by rw [toggleHabit, if_neg h]
    rw [h1, h1]

/-- C9: when no habit carries the requested id, `toggleHabit` is a complete
no-op (in-memory and persisted state untouched, since the save is inside the
hit branch), and `deleteHabit` leaves the habit list — and hence the habit
sequence it persists — unchanged (a cancelled confirm leaves the whole state
unchanged; a confirmed delete re-saves the same habit list, re-stamping only
the date). -/
theorem missing_id_noop (st : State) (today : String) (i : Nat) (confirmed : Bool)
    (h : ∀ x ∈ st.habits, x.id ≠ i) :
    toggleHabit today i st = st ∧
    (deleteHabit confirmed today i st).habits = st.habits ∧
    (confirmed = false → deleteHabit confirmed today i st = st) ∧
    (confirmed = true →
      (deleteHabit confirmed today i st).storage
          = some (encodeSnapshot ⟨today, st.habits⟩) ∧
      parseSnapshot (encodeSnapshot ⟨today, st.habits⟩) = some ⟨today, st.habits⟩) := by
  have hany : ¬ (st.habits.any (fun x => x.id == i) = true) := by
    intro hcon
    obtain ⟨x, hx, hxi⟩ := List.any_eq_true.mp hcon
    exact h x hx (by simpa using hxi)
  have hfilter : st.habits.filter (fun x => x.id != i) = st.habits := by
    rw [List.filter_eq_self]
    intro x hx
    simpa using h x hx
  refine ⟨by rw [toggleHabit, if_neg hany], ?_, ?_, ?_⟩
  · cases confirmed
    · rfl
    · rw [deleteHabit, if_pos rfl, saveData_habits]
      show st.habits.filter (fun x => x.id != i) = st.habits
      exact hfilter
  · intro hc; subst hc; rfl
  · intro hc; subst hc
    constructor
    · rw [deleteHabit, if_pos rfl, saveData_storage]
      show some (encodeSnapshot ⟨today, st.habits.filter (fun x => x.id != i)⟩) = _
      rw [hfilter]
    · exact parseSnapshot_encode ⟨today, st.habits⟩

/-- C9 witness: on a two-habit store and an id (7) carried by no habit,
toggling is a complete no-op and deleting (confirmed) leaves the habit list
and the persisted habit sequence unchanged. -/
theorem missing_id_noop_witness :
    (∀ x ∈ ([⟨1, "Read", "07:00", true⟩, ⟨2, "Run", "Anytime", false⟩] : List Habit),
      x.id ≠ 7) ∧
    toggleHabit "Mon" 7 ⟨[⟨1, "Read", "07:00", true⟩, ⟨2, "Run", "Anytime", false⟩], 10, none⟩
      = ⟨[⟨1, "Read", "07:00", true⟩, ⟨2, "Run", "Anytime", false⟩], 10, none⟩ := by
  refine ⟨by decide, ?_⟩
  exact (missing_id_noop ⟨[⟨1, "Read", "07:00", true⟩, ⟨2, "Run", "Anytime", false⟩], 10, none⟩
    "Mon" 7 true (by decide)).1

/-- C10: toggling an id that is present changes exactly the first habit
carrying it: the list decomposes as `l₁ ++ a :: l₂` with `a.id = i`, the
result is `l₁ ++ \x7b a with completed := !a.completed \x7d :: l₂` — so that
habit keeps its id, name and time, every habit in `l₁` and `l₂` is unchanged
in all fields, the order is unchanged — and the length is preserved. -/
theorem toggle_frame (st : State) (today : String) (i : Nat)
    (hp : ∃ a ∈ st.habits, a.id = i) :
    ∃ l₁ a l₂, st.habits = l₁ ++ a :: l₂ ∧ a.id = i ∧ (∀ x ∈ l₁, x.id ≠ i) ∧
      (toggleHabit today i st).habits
          = l₁ ++ ({ a with completed := !a.completed }) :: l₂ ∧
      (toggleHabit today i st).habits.length = st.habits.length := by
  have hany : st.habits.any (fun x => x.id == i) = true := by
    rcases hp with ⟨a, ha, hai⟩
    exact List.any_eq_true.mpr ⟨a, ha, by simpa using hai⟩
  obtain ⟨l₁, a, l₂, hdec, hl₁, hai⟩ := anyid_decomp i st.habits hany
  have hres : (toggleHabit today i st).habits
      = l₁ ++ ({ a with completed := !a.completed }) :: l₂ := by
    rw [toggleHabit, if_pos hany, saveData_habits]
    show toggleList i st.habits = _
    rw [hdec, toggleList_skip i l₁ _ hl₁]
    simp [toggleList, hai]
  refine ⟨l₁, a, l₂, hdec, hai, hl₁, hres, ?_⟩
  rw [hres, hdec]
  simp

/-- C10 witness: toggling id 2 in a three-habit store flips exactly the
middle habit's `completed` flag and preserves everything else. -/
theorem toggle_frame_witness :
    (∃ a ∈ ([⟨1, "Read", "07:00", false⟩, ⟨2, "Run", "Anytime", false⟩,
      ⟨3, "Swim", "09:00", true⟩] : List Habit), a.id = 2) ∧
    ∃ l₁ a l₂,
      ([⟨1, "Read", "07:00", false⟩, ⟨2, "Run", "Anytime", false⟩,
        ⟨3, "Swim", "09:00", true⟩] : List Habit) = l₁ ++ a :: l₂ ∧ a.id = 2 ∧
      (∀ x ∈ l₁, x.id ≠ 2) ∧
      (toggleHabit "Mon" 2 ⟨[⟨1, "Read", "07:00", false⟩, ⟨2, "Run", "Anytime", false⟩,
        ⟨3, "Swim", "09:00", true⟩], 0, none⟩).habits
          = l₁ ++ ({ a with completed := !a.completed }) :: l₂ ∧
      (toggleHabit "Mon" 2 ⟨[⟨1, "Read", "07:00", false⟩, ⟨2, "Run", "Anytime", false⟩,
        ⟨3, "Swim", "09:00", true⟩], 0, none⟩).habits.length
          = ([⟨1, "Read", "07:00", false⟩, ⟨2, "Run", "Anytime", false⟩,
        ⟨3, "Swim", "09:00", true⟩] : List Habit).length := by
  refine ⟨⟨⟨2, "Run", "Anytime", false⟩, by decide, rfl⟩, ?_⟩
  exact toggle_frame ⟨[⟨1, "Read", "07:00", false⟩, ⟨2, "Run", "Anytime", false⟩,
    ⟨3, "Swim", "09:00", true⟩], 0, none⟩ "Mon" 2
    ⟨⟨2, "Run", "Anytime", false⟩, by decide, rfl⟩

/-- C4: `saveData` writes the JSON snapshot `(today, habits)` into the slot;
that text parses back to exactly the saved habit sequence (same order and
fields) and the `lastVisitDate` that `saveData` wrote, and a subsequent
`loadData` succeeds and restores exactly that habit sequence in memory. -/
theorem save_load_roundtrip (st : State) (today : String) :
    ∃ raw, (saveData today st).storage = some raw ∧
      parseSnapshot raw = some ⟨today, st.habits⟩ ∧
      ∃ st2, loadData (saveData today st) = Except.ok st2 ∧ st2.habits = st.habits := by
  refine ⟨encodeSnapshot ⟨today, st.habits⟩, rfl, parseSnapshot_encode _, ?_⟩
  have h0 : loadData (saveData today st)
      = match parseSnapshot (encodeSnapshot ⟨today, st.habits⟩) with
        | none => Except.error ()
        | some snap =>
            Except.ok (calculatePoints { saveData today st with habits := snap.habits }) := rfl
  rw [h0, parseSnapshot_encode]
  exact ⟨_, rfl, rfl⟩

/-- C5 counterexample: with the durable slot holding the unparseable text
"corrupt", `loadData` does not fall back to an empty store — the `JSON.parse`
exception propagates (modelled as `Except.error ()`), contradicting the claim
that startup loading never crashes and always yields a renderable state. -/
theorem loadData_corrupt_cex :
    loadData ⟨[], 0, some "corrupt"⟩ = Except.error () := rfl

/-- C5 (amended): an absent slot loads as the fresh-install state unchanged;
a slot that parses as a snapshot loads its habit sequence with the cached
points recomputed (so the state is renderable); but a slot whose text fails
to parse makes `loadData` propagate the exception instead of falling back to
an empty store. -/
theorem loadData_spec (st : State) :
    (st.storage = none → loadData st = Except.ok st) ∧
    (∀ raw snap, st.storage = some raw → parseSnapshot raw = some snap →
      ∃ st2, loadData st = Except.ok st2 ∧ st2.habits = snap.habits ∧
        st2.totalPoints = 10 * completedCount snap.habits ∧ st2.storage = st.storage) ∧
    (∀ raw, st.storage = some raw → parseSnapshot raw = none →
      loadData st = Except.error ()) := by
  refine ⟨?_, ?_, ?_⟩
  · intro h
    rw [loadData, h]
  · intro raw snap hs hp
    refine ⟨calculatePoints { st with habits := snap.habits }, ?_, rfl, ?_, ?_⟩
    · simp only [loadData, hs, hp]
    · show completedCount snap.habits * POINTS_PER_HABIT = 10 * completedCount snap.habits
      rw [POINTS_PER_HABIT, Nat.mul_comm]
    · rfl
  · intro raw hs hp
    simp only [loadData, hs, hp]

/-- C5 witness: an empty slot loads unchanged; a slot holding the serialized
snapshot ("Mon", one completed habit) loads that habit list with points 10
and does not error. -/
theorem loadData_spec_witness :
    loadData ⟨[], 0, none⟩ = Except.ok ⟨[], 0, none⟩ ∧
    ∃ st2, loadData ⟨[], 0, some (encodeSnapshot ⟨"Mon", [⟨1, "Read", "07:00", true⟩]⟩)⟩
        = Except.ok st2 ∧
      st2.habits = [⟨1, "Read", "07:00", true⟩] ∧
      st2.totalPoints = 10 * completedCount [⟨1, "Read", "07:00", true⟩] ∧
      st2.storage = (⟨[], 0, some (encodeSnapshot ⟨"Mon", [⟨1, "Read", "07:00", true⟩]⟩)⟩ :
        State).storage := by
  constructor
  · exact (loadData_spec ⟨[], 0, none⟩).1 rfl
  · exact (loadData_spec ⟨[], 0, some (encodeSnapshot ⟨"Mon", [⟨1, "Read", "07:00", true⟩]⟩)⟩).2.1
      (encodeSnapshot ⟨"Mon", [⟨1, "Read", "07:00", true⟩]⟩)
      ⟨"Mon", [⟨1, "Read", "07:00", true⟩]⟩ rfl (parseSnapshot_encode _)

/-- C2: when the slot holds a parseable snapshot, `checkDailyReset` with a
date equal to the stored `lastVisitDate` changes nothing and reports false;
with a different date it clears every habit's `completed` flag, persists the
new snapshot stamped with the given date, and reports true. -/
theorem checkDailyReset_spec (st : State) (today raw : String) (snap : Snapshot)
    (hs : st.storage = some raw) (hp : parseSnapshot raw = some snap) :
    (snap.lastVisitDate = today → checkDailyReset today st = Except.ok (st, false)) ∧
    (snap.lastVisitDate ≠ today →
      ∃ st2, checkDailyReset today st = Except.ok (st2, true) ∧
        st2.habits = st.habits.map (fun h => { h with completed := false }) ∧
        (∀ x ∈ st2.habits, x.completed = false) ∧
        st2.storage = some (encodeSnapshot ⟨today, st2.habits⟩) ∧
        parseSnapshot (encodeSnapshot ⟨today, st2.habits⟩) = some ⟨today, st2.habits⟩) := by
  constructor
  · intro he
    simp only [checkDailyReset, hs, hp, if_pos he]
  · intro hne
    refine ⟨saveData today
      { st with habits := st.habits.map (fun h => { h with completed := false }) },
      ?_, rfl, ?_, ?_, parseSnapshot_encode _⟩
    · simp only [checkDailyReset, hs, hp, if_neg hne]
    · intro x hx
      rw [saveData_habits] at hx
      obtain ⟨y, _, hy⟩ := List.mem_map.mp hx
      rw [← hy]
    · rfl

/-- C2 witness: a store whose slot holds the snapshot ("Fri", one completed
habit): resetting on "Fri" changes nothing and reports false; resetting on
"Sat" clears the flag, persists under "Sat", and reports true. -/
theorem checkDailyReset_spec_witness :
    checkDailyReset "Fri"
      ⟨[⟨1, "Read", "07:00", true⟩], 10,
        some (encodeSnapshot ⟨"Fri", [⟨1, "Read", "07:00", true⟩]⟩)⟩
      = Except.ok (⟨[⟨1, "Read", "07:00", true⟩], 10,
        some (encodeSnapshot ⟨"Fri", [⟨1, "Read", "07:00", true⟩]⟩)⟩, false) ∧
    ∃ st2, checkDailyReset "Sat"
      ⟨[⟨1, "Read", "07:00", true⟩], 10,
        some (encodeSnapshot ⟨"Fri", [⟨1, "Read", "07:00", true⟩]⟩)⟩
      = Except.ok (st2, true) ∧
      st2.habits = ([⟨1, "Read", "07:00", true⟩] : List Habit).map
        (fun h => { h with completed := false }) ∧
      (∀ x ∈ st2.habits, x.completed = false) ∧
      st2.storage = some (encodeSnapshot ⟨"Sat", st2.habits⟩) ∧
      parseSnapshot (encodeSnapshot ⟨"Sat", st2.habits⟩) = some ⟨"Sat", st2.habits⟩ := by
  constructor
  · exact (checkDailyReset_spec
      ⟨[⟨1, "Read", "07:00", true⟩], 10,
        some (encodeSnapshot ⟨"Fri", [⟨1, "Read", "07:00", true⟩]⟩)⟩
      "Fri" (encodeSnapshot ⟨"Fri", [⟨1, "Read", "07:00", true⟩]⟩)
      ⟨"Fri", [⟨1, "Read", "07:00", true⟩]⟩ rfl (parseSnapshot_encode _)).1 rfl
  · exact (checkDailyReset_spec
      ⟨[⟨1, "Read", "07:00", true⟩], 10,
        some (encodeSnapshot ⟨"Fri", [⟨1, "Read", "07:00", true⟩]⟩)⟩
      "Sat" (encodeSnapshot ⟨"Fri", [⟨1, "Read", "07:00", true⟩]⟩)
      ⟨"Fri", [⟨1, "Read", "07:00", true⟩]⟩ rfl (parseSnapshot_encode _)).2 (by decide)

/-- C1 counterexample: `addHabit` takes its id from the clock (`Date.now()`)
without any distinctness check, so with an existing habit of id 100 and a
clock reading of 100 the appended habit's id equals an existing habit's id —
the new id is not "distinct from every existing habit's id" as claimed. -/
theorem addHabit_fresh_id_cex :
    (addHabit 100 "Mon" "Walk" "" ⟨[⟨100, "Run", "Anytime", false⟩], 0, none⟩).2
      = Except.ok ⟨100, "Walk", "Anytime", false⟩ ∧
    ∃ x ∈ ([⟨100, "Run", "Anytime", false⟩] : List Habit), x.id = 100 := by
  exact ⟨rfl, ⟨100, "Run", "Anytime", false⟩, by decide, rfl⟩

/-- C1 (amended): `addHabit` trims the name and fails with the validation
error when the trimmed name is empty, fails with the duplicate error when
some existing habit's name equals it case-insensitively — the habit list
unchanged in both failure cases — and otherwise appends exactly one habit at
the end with `completed = false`, the time defaulted to "Anytime" when the
input time is empty, and id equal to the clock reading `now`, which is
distinct from every existing habit's id whenever `now` differs from them
all; the count grows by exactly 1. -/
theorem addHabit_spec (st : State) (now : Nat) (today nameIn timeIn : String) :
    (jsTrim nameIn = "" →
      addHabit now today nameIn timeIn st = (st, Except.error AddError.validation)) ∧
    (jsTrim nameIn ≠ "" →
      (∃ x ∈ st.habits, jsToLower x.name = jsToLower (jsTrim nameIn)) →
      addHabit now today nameIn timeIn st = (st, Except.error AddError.duplicate)) ∧
    (jsTrim nameIn ≠ "" →
      (∀ x ∈ st.habits, jsToLower x.name ≠ jsToLower (jsTrim nameIn)) →
      (addHabit now today nameIn timeIn st).1.habits
          = st.habits ++
            [⟨now, jsTrim nameIn, if timeIn = "" then "Anytime" else timeIn, false⟩] ∧
      (addHabit now today nameIn timeIn st).2
          = Except.ok ⟨now, jsTrim nameIn, if timeIn = "" then "Anytime" else timeIn, false⟩ ∧
      (addHabit now today nameIn timeIn st).1.habits.length = st.habits.length + 1 ∧
      ((∀ x ∈ st.habits, x.id ≠ now) → ∀ x ∈ st.habits,
        x.id ≠ (⟨now, jsTrim nameIn, if timeIn = "" then "Anytime" else timeIn,
          false⟩ : Habit).id)) := by
  refine ⟨?_, ?_, ?_⟩
  · intro he
    simp only [addHabit, he, if_pos]
  · intro hne hdup
    have hany : st.habits.any (fun h => jsToLower h.name == jsToLower (jsTrim nameIn)) = true := by
      obtain ⟨x, hx, hxe⟩ := hdup
      exact List.any_eq_true.mpr ⟨x, hx, by simpa using hxe⟩
    simp only [addHabit, if_neg hne, hany, if_pos]
  · intro hne hnodup
    have hany : ¬ (st.habits.any (fun h => jsToLower h.name == jsToLower (jsTrim nameIn)) = true) := by
      intro hcon
      obtain ⟨x, hx, hxe⟩ := List.any_eq_true.mp hcon
      exact hnodup x hx (by simpa using hxe)
    refine ⟨?_, ?_, ?_, ?_⟩
    · simp only [addHabit, if_neg hne, if_neg hany, saveData_habits]
    · simp only [addHabit, if_neg hne, if_neg hany]
    · simp only [addHabit, if_neg hne, if_neg hany, saveData_habits]
      simp
    · intro hfresh x hx
      exact hfresh x hx

/-- C1 witness: an all-whitespace name is rejected with the validation error;
"MEDITATE" collides case-insensitively with an existing "Meditate" and is
rejected with the duplicate error (state unchanged in both cases); and adding
"Read" with an empty time to an empty store appends exactly the habit
(5, "Read", "Anytime", false). -/
theorem addHabit_spec_witness :
    addHabit 5 "Mon" "   " "07:00" ⟨[], 0, none⟩
      = (⟨[], 0, none⟩, Except.error AddError.validation) ∧
    addHabit 5 "Mon" "MEDITATE" "" ⟨[⟨1, "Meditate", "Anytime", false⟩], 0, none⟩
      = (⟨[⟨1, "Meditate", "Anytime", false⟩], 0, none⟩, Except.error AddError.duplicate) ∧
    (addHabit 5 "Mon" "Read" "" ⟨[], 0, none⟩).1.habits
      = [⟨5, "Read", if "" = "" then "Anytime" else "", false⟩] ∧
    (addHabit 5 "Mon" "Read" "" ⟨[], 0, none⟩).1.habits.length = 0 + 1 := by
  refine ⟨?_, ?_, ?_, ?_⟩
  · exact (addHabit_spec ⟨[], 0, none⟩ 5 "Mon" "   " "07:00").1 (by decide)
  · exact (addHabit_spec ⟨[⟨1, "Meditate", "Anytime", false⟩], 0, none⟩ 5 "Mon" "MEDITATE" "").2.1
      (by decide) ⟨⟨1, "Meditate", "Anytime", false⟩, by decide, by decide⟩
  · exact ((addHabit_spec ⟨[], 0, none⟩ 5 "Mon" "Read" "").2.2 (by decide) (by decide)).1
  · exact ((addHabit_spec ⟨[], 0, none⟩ 5 "Mon" "Read" "").2.2 (by decide) (by decide)).2.2.1

/-- `calculatePoints` establishes the points invariant. -/
theorem calculatePoints_invariant (st : State) :
    (calculatePoints st).totalPoints = 10 * completedCount (calculatePoints st).habits := by
  show completedCount st.habits * POINTS_PER_HABIT = 10 * completedCount st.habits
  rw [POINTS_PER_HABIT, Nat.mul_comm]

/-- `saveData` establishes the points invariant. -/
theorem saveData_invariant (today : String) (st : State) :
    (saveData today st).totalPoints = 10 * completedCount (saveData today st).habits :=
  calculatePoints_invariant _

/-- C3: in every state reachable by the store's operations (add, toggle,
delete, daily reset, load, save) from a fresh page load, the cached
`totalPoints` equals 10 times the number of habits whose `completed` flag is
true. -/
theorem totalPoints_invariant (st : State) (h : Reachable st) :
    st.totalPoints = 10 * completedCount st.habits := by
  induction h with
  | init storage => rfl
  | @load st st2 hR hEq ih =>
    rw [loadData] at hEq
    cases hst : st.storage with
    | none =>
      simp only [hst] at hEq
      injection hEq with h2
      rw [← h2]
      exact ih
    | some raw =>
      simp only [hst] at hEq
      cases hpr : parseSnapshot raw with
      | none =>
        simp only [hpr] at hEq
        exact Except.noConfusion hEq
      | some snap =>
        simp only [hpr] at hEq
        injection hEq with h2
        rw [← h2]
        exact calculatePoints_invariant _
  | @reset st st2 today b hR hEq ih =>
    rw [checkDailyReset] at hEq
    cases hst : st.storage with
    | none =>
      simp only [hst] at hEq
      injection hEq with h2
      injection h2 with h3 h4
      rw [← h3]
      exact ih
    | some raw =>
      simp only [hst] at hEq
      cases hpr : parseSnapshot raw with
      | none =>
        simp only [hpr] at hEq
        exact Except.noConfusion hEq
      | some snap =>
        simp only [hpr] at hEq
        by_cases hd : snap.lastVisitDate = today
        · rw [if_pos hd] at hEq
          injection hEq with h2
          injection h2 with h3 h4
          rw [← h3]
          exact ih
        · rw [if_neg hd] at hEq
          injection hEq with h2
          injection h2 with h3 h4
          rw [← h3]
          exact saveData_invariant _ _
  | add now today nameIn timeIn hR ih =>
    simp only [addHabit]
    split
    · exact ih
    · split
      · exact ih
      · exact saveData_invariant _ _
  | toggle today i hR ih =>
    rw [toggleHabit]
    split
    · exact saveData_invariant _ _
    · exact ih
  | delete confirmed today i hR ih =>
    rw [deleteHabit]
    split
    · exact saveData_invariant _ _
    · exact ih
  | save today hR ih => exact saveData_invariant _ _

/-- C3 witness: the fresh-load state with an empty habit list is reachable
and satisfies the invariant (0 points, no completed habits). -/
theorem totalPoints_invariant_witness :
    (⟨[], 0, none⟩ : State).totalPoints = 10 * completedCount (⟨[], 0, none⟩ : State).habits :=
  totalPoints_invariant ⟨[], 0, none⟩ (Reachable.init none)

/-- `charListLe` is total. -/
theorem charListLe_total : ∀ x y : List Char, (charListLe x y || charListLe y x) = true := by
  intro x
  induction x with
  | nil => intro y; simp [charListLe]
  | cons a as ih =>
    intro y
    cases y with
    | nil => simp [charListLe]
    | cons b bs =>
      rcases lt_trichotomy a b with h | h | h
      · simp [charListLe, h]
      · subst h
        simp only [charListLe, lt_irrefl, if_false]
        exact ih bs
      · simp [charListLe, h, not_lt_of_lt h]

/-- `charListLe` is transitive. -/
theorem charListLe_trans : ∀ x y z : List Char,
    charListLe x y = true → charListLe y z = true → charListLe x z = true := by
  intro x
  induction x with
  | nil => intro y z _ _; rfl
  | cons a as ih =>
    intro y z hxy hyz
    cases y with
    | nil => simp [charListLe] at hxy
    | cons b bs =>
      cases z with
      | nil => simp [charListLe] at hyz
      | cons c cs =>
        rw [charListLe] at hxy hyz ⊢
        by_cases hab : a < b
        · by_cases hbc : b < c
          · rw [if_pos (lt_trans hab hbc)]
          · rw [if_neg hbc] at hyz
            by_cases hcb : c < b
            · rw [if_pos hcb] at hyz
              exact absurd hyz (by decide)
            · have hbceq : b = c := le_antisymm (not_lt.mp hcb) (not_lt.mp hbc)
              rw [if_pos (hbceq ▸ hab)]
        · rw [if_neg hab] at hxy
          by_cases hba : b < a
          · rw [if_pos hba] at hxy
            exact absurd hxy (by decide)
          · have habeq : a = b := le_antisymm (not_lt.mp hba) (not_lt.mp hab)
            subst habeq
            by_cases hac : a < c
            · rw [if_pos hac]
            · rw [if_neg hac] at hyz ⊢
              by_cases hca : c < a
              · rw [if_pos hca] at hyz
                exact absurd hyz (by decide)
              · rw [if_neg hca] at hyz ⊢
                rw [if_neg hab] at hxy
                exact ih bs cs hxy hyz

/-- The display comparator is total. -/
theorem displayLe_total (a b : Habit) : (displayLe a b || displayLe b a) = true := by
  unfold displayLe
  by_cases h : a.completed = b.completed
  · rw [if_pos h, if_pos h.symm]
    exact charListLe_total a.time.data b.time.data
  · rw [if_neg h, if_neg (fun hh => h hh.symm)]
    cases ha : a.completed
    · rfl
    · cases hb : b.completed
      · rfl
      · exact absurd (ha.trans hb.symm) h

/-- The display comparator is transitive. -/
theorem displayLe_trans (a b c : Habit)
    (hab : displayLe a b = true) (hbc : displayLe b c = true) :
    displayLe a c = true := by
  unfold displayLe at hab hbc ⊢
  by_cases h1 : a.completed = b.completed
  · by_cases h2 : b.completed = c.completed
    · rw [if_pos h1] at hab
      rw [if_pos h2] at hbc
      rw [if_pos (h1.trans h2)]
      exact charListLe_trans _ _ _ hab hbc
    · rw [if_neg h2] at hbc
      rw [if_neg (h1 ▸ h2), h1]
      exact hbc
  · by_cases h2 : b.completed = c.completed
    · rw [if_neg h1] at hab
      rw [if_neg (fun hh => h1 (hh.trans h2.symm))]
      exact hab
    · rw [if_neg h1] at hab
      rw [if_neg h2] at hbc
      have ha : a.completed = false := by
        cases hA : a.completed
        · rfl
        · rw [hA] at hab; exact absurd hab (by decide)
      have hb1 : b.completed = true := by
        cases hB : b.completed
        · exact absurd (ha.trans hB.symm) h1
        · rfl
      have hb2 : b.completed = false := by
        cases hB : b.completed
        · rfl
        · rw [hB] at hbc; exact absurd hbc (by decide)
      exact absurd (hb2 ▸ hb1) (by decide)

/-- C6: the display ordering of `renderHabits` is a permutation of the habit
list in which every incomplete habit precedes every completed one, and
within each group the `time` fields appear in ascending raw lexicographic
(code-point) order — "Anytime" compared like any other string; the canonical
list itself is not modified (the sort runs on a copy: `listForDisplay` is a
pure function of the list and the permutation relates its output back to the
unchanged input). -/
theorem listForDisplay_spec (habits : List Habit) :
    (listForDisplay habits).Perm habits ∧
    List.Pairwise (fun a b =>
      (a.completed = true → b.completed = true) ∧
      (a.completed = b.completed → charListLe a.time.data b.time.data = true))
      (listForDisplay habits) := by
  constructor
  · exact List.mergeSort_perm habits displayLe
  · have hs := @List.sorted_mergeSort Habit displayLe displayLe_trans
      (fun a b => displayLe_total a b) habits
    refine hs.imp ?_
    intro a b hab
    unfold displayLe at hab
    by_cases h : a.completed = b.completed
    · rw [if_pos h] at hab
      exact ⟨fun ha => h ▸ ha, fun _ => hab⟩
    · rw [if_neg h] at hab
      have ha : a.completed = false := by
        cases hA : a.completed
        · rfl
        · rw [hA] at hab; exact absurd hab (by decide)
      exact ⟨fun hTa => absurd (ha ▸ hTa) (by decide), fun hEq => absurd hEq h⟩

/-- C7: the completion percentage is 0 for an empty list and otherwise
`Math.round(completed / total * 100)` (round half up, arithmetic modelled as
exact rationals); in all cases it is an integer between 0 and 100. -/
theorem updateProgress_spec (habits : List Habit) :
    (habits.length = 0 → updateProgress habits = 0) ∧
    (habits.length ≠ 0 → updateProgress habits
        = jsRound ((completedCount habits : ℚ) / (habits.length : ℚ) * 100)) ∧
    0 ≤ updateProgress habits ∧ updateProgress habits ≤ 100 := by
  refine ⟨?_, ?_, ?_⟩
  · intro h
    rw [updateProgress, if_pos h]
  · intro h
    rw [updateProgress, if_neg h]
  · by_cases h : habits.length = 0
    · rw [updateProgress, if_pos h]
      exact ⟨le_refl 0, by norm_num⟩
    · rw [updateProgress, if_neg h]
      have hlen : (0 : ℚ) < (habits.length : ℚ) := by
        have : 0 < habits.length := Nat.pos_of_ne_zero h
        exact_mod_cast this
      have hc : (completedCount habits : ℚ) ≤ (habits.length : ℚ) := by
        have : completedCount habits ≤ habits.length := List.length_filter_le _ _
        exact_mod_cast this
      have hc0 : (0 : ℚ) ≤ (completedCount habits : ℚ) := by positivity
      have hq0 : (0 : ℚ) ≤ (completedCount habits : ℚ) / (habits.length : ℚ) * 100 := by
        positivity
      have hq100 : (completedCount habits : ℚ) / (habits.length : ℚ) * 100 ≤ 100 := by
        rw [div_mul_eq_mul_div, div_le_iff₀ hlen]
        nlinarith
      constructor
      · exact Int.floor_nonneg.mpr (by linarith)
      · show jsRound _ ≤ 100
        unfold jsRound
        calc ⌊(completedCount habits : ℚ) / (habits.length : ℚ) * 100 + 1 / 2⌋
            ≤ ⌊(100 : ℚ) + 1 / 2⌋ := Int.floor_le_floor (by linarith)
          _ = 100 := by norm_num

/-- C7 witness: 0 habits gives 0; two habits with one completed give the
rounded percentage, which evaluates to 50. -/
theorem updateProgress_spec_witness :
    updateProgress [] = 0 ∧
    updateProgress [⟨1, "a", "x", true⟩, ⟨2, "b", "y", false⟩]
      = jsRound ((completedCount [⟨1, "a", "x", true⟩, ⟨2, "b", "y", false⟩] : ℚ)
          / (([⟨1, "a", "x", true⟩, ⟨2, "b", "y", false⟩] : List Habit).length : ℚ) * 100) := by
  exact ⟨(updateProgress_spec []).1 rfl,
    (updateProgress_spec [⟨1, "a", "x", true⟩, ⟨2, "b", "y", false⟩]).2.1 (by decide)⟩
